import Mathlib

/-!
Verification of the string-case conversion utilities of this repository:
`toKebabCase` (kebab-case converter), `toCamelCase` (camelCase converter)
and `toDotCase` (dot.case converter).

The JavaScript functions are shallowly embedded over `List Char`.  Case
mapping is modelled on the ASCII range (the project's stated scope: no
Unicode case folding beyond ASCII letters).  Inputs that may be `null`,
`undefined` or a non-string value are modelled by the `JSValue` type, and
a thrown `TypeError` is modelled as `Except.error`.
-/

/-! ## Character classes used by the source regexes -/

/-- ASCII lowercase letter, regex class `[a-z]`. -/
def isLowerAlpha (c : Char) : Bool := decide (97 ≤ c.toNat ∧ c.toNat ≤ 122)

/-- ASCII uppercase letter, regex class `[A-Z]`. -/
def isUpperAlpha (c : Char) : Bool := decide (65 ≤ c.toNat ∧ c.toNat ≤ 90)

/-- ASCII digit, regex class `[0-9]`. -/
def isDigitChar (c : Char) : Bool := decide (48 ≤ c.toNat ∧ c.toNat ≤ 57)

/-- Regex class `[A-Za-z0-9]`. -/
def isAlnumChar (c : Char) : Bool := isLowerAlpha c || isUpperAlpha c || isDigitChar c

/-- The JavaScript regex `\s` class (also the character set removed by
`String.prototype.trim`): ASCII whitespace plus the Unicode space
separators recognized by the engine. -/
def isJsWhitespace (c : Char) : Bool :=
  decide (c.toNat = 32 ∨ c.toNat = 9 ∨ c.toNat = 10 ∨ c.toNat = 11 ∨ c.toNat = 12 ∨
    c.toNat = 13 ∨ c.toNat = 0xa0 ∨ c.toNat = 0x1680 ∨
    (0x2000 ≤ c.toNat ∧ c.toNat ≤ 0x200a) ∨ c.toNat = 0x2028 ∨ c.toNat = 0x2029 ∨
    c.toNat = 0x202f ∨ c.toNat = 0x205f ∨ c.toNat = 0x3000 ∨ c.toNat = 0xfeff)

/-- The hyphen-minus character `-` (code point 45). -/
def isHyphenChar (c : Char) : Bool := decide (c.toNat = 45)

/-- Delimiter class of `toKebabCase`, regex `[\s_.\-]`:
whitespace, underscore, period, hyphen. -/
def isKebabDelim (c : Char) : Bool :=
  isJsWhitespace c || decide (c.toNat = 95) || decide (c.toNat = 46) || isHyphenChar c

/-- Delimiter class of `toCamelCase`, regex `[\s\-_]`:
whitespace, hyphen, underscore (the dot is not included). -/
def isCamelDelim (c : Char) : Bool :=
  isJsWhitespace c || isHyphenChar c || decide (c.toNat = 95)

/-- Delimiter class of `toDotCase`, regex `[\s\-_\.]`:
whitespace, hyphen, underscore, dot. -/
def isDotDelim (c : Char) : Bool :=
  isJsWhitespace c || isHyphenChar c || decide (c.toNat = 95) || decide (c.toNat = 46)

/-- ASCII model of JavaScript `toLowerCase` on one character. -/
def toLowerChar (c : Char) : Char :=
  if isUpperAlpha c then Char.ofNat (c.toNat + 32) else c

/-- ASCII model of JavaScript `toUpperCase` on one character. -/
def toUpperChar (c : Char) : Char :=
  if isLowerAlpha c then Char.ofNat (c.toNat - 32) else c

/-! ## Basic character lemmas -/

theorem char_toNat_ofNat {n : Nat} (h : n < 0xd800) : (Char.ofNat n).toNat = n := by
  have hv : n.isValidChar := Or.inl h
  simp [Char.ofNat, dif_pos hv, Char.ofNatAux, Char.toNat, UInt32.toNat]

theorem toNat_toLowerChar {c : Char} (h : isUpperAlpha c = true) :
    (toLowerChar c).toNat = c.toNat + 32 := by
  have h2 : 65 ≤ c.toNat ∧ c.toNat ≤ 90 := by simpa [isUpperAlpha] using h
  rw [toLowerChar, if_pos h]
  exact char_toNat_ofNat (by omega)

theorem toNat_toUpperChar {c : Char} (h : isLowerAlpha c = true) :
    (toUpperChar c).toNat = c.toNat - 32 := by
  have h2 : 97 ≤ c.toNat ∧ c.toNat ≤ 122 := by simpa [isLowerAlpha] using h
  rw [toUpperChar, if_pos h]
  exact char_toNat_ofNat (by omega)

theorem toLowerChar_eq_of_not_upper {c : Char} (h : isUpperAlpha c = false) :
    toLowerChar c = c := by
  rw [toLowerChar, if_neg]
  simp [h]

theorem toUpperChar_eq_of_not_lower {c : Char} (h : isLowerAlpha c = false) :
    toUpperChar c = c := by
  rw [toUpperChar, if_neg]
  simp [h]

theorem isUpperAlpha_toLowerChar (c : Char) : isUpperAlpha (toLowerChar c) = false := by
  cases h : isUpperAlpha c with
  | false => rw [toLowerChar_eq_of_not_upper h, h]
  | true =>
    have h2 : 65 ≤ c.toNat ∧ c.toNat ≤ 90 := by simpa [isUpperAlpha] using h
    have h3 := toNat_toLowerChar h
    simp only [isUpperAlpha, h3, decide_eq_false_iff_not]
    omega

theorem isLowerAlpha_toUpperChar (c : Char) : isLowerAlpha (toUpperChar c) = false := by
  cases h : isLowerAlpha c with
  | false => rw [toUpperChar_eq_of_not_lower h, h]
  | true =>
    have h2 : 97 ≤ c.toNat ∧ c.toNat ≤ 122 := by simpa [isLowerAlpha] using h
    have h3 := toNat_toUpperChar h
    simp only [isLowerAlpha, h3, decide_eq_false_iff_not]
    omega

theorem isJsWhitespace_toLowerChar (c : Char) :
    isJsWhitespace (toLowerChar c) = isJsWhitespace c := by
  cases h : isUpperAlpha c with
  | false => rw [toLowerChar_eq_of_not_upper h]
  | true =>
    have h2 : 65 ≤ c.toNat ∧ c.toNat ≤ 90 := by simpa [isUpperAlpha] using h
    have h3 := toNat_toLowerChar h
    rw [Bool.eq_iff_iff]
    simp only [isJsWhitespace, h3, decide_eq_true_eq]
    omega

theorem isKebabDelim_toLowerChar (c : Char) :
    isKebabDelim (toLowerChar c) = isKebabDelim c := by
  cases h : isUpperAlpha c with
  | false => rw [toLowerChar_eq_of_not_upper h]
  | true =>
    have h2 : 65 ≤ c.toNat ∧ c.toNat ≤ 90 := by simpa [isUpperAlpha] using h
    have h3 := toNat_toLowerChar h
    rw [Bool.eq_iff_iff]
    simp only [isKebabDelim, isJsWhitespace, isHyphenChar, h3, Bool.or_eq_true,
      decide_eq_true_eq]
    omega

theorem isDotDelim_toLowerChar (c : Char) :
    isDotDelim (toLowerChar c) = isDotDelim c := by
  cases h : isUpperAlpha c with
  | false => rw [toLowerChar_eq_of_not_upper h]
  | true =>
    have h2 : 65 ≤ c.toNat ∧ c.toNat ≤ 90 := by simpa [isUpperAlpha] using h
    have h3 := toNat_toLowerChar h
    rw [Bool.eq_iff_iff]
    simp only [isDotDelim, isJsWhitespace, isHyphenChar, h3, Bool.or_eq_true,
      decide_eq_true_eq]
    omega

theorem isHyphenChar_toLowerChar (c : Char) :
    isHyphenChar (toLowerChar c) = isHyphenChar c := by
  cases h : isUpperAlpha c with
  | false => rw [toLowerChar_eq_of_not_upper h]
  | true =>
    have h2 : 65 ≤ c.toNat ∧ c.toNat ≤ 90 := by simpa [isUpperAlpha] using h
    have h3 := toNat_toLowerChar h
    rw [Bool.eq_iff_iff]
    simp only [isHyphenChar, h3, decide_eq_true_eq]
    omega

theorem toUpperChar_eq_self_iff (c : Char) :
    toUpperChar c = c ↔ isLowerAlpha c = false := by
  constructor
  · intro h
    by_contra hne
    have hl : isLowerAlpha c = true := by
      cases hx : isLowerAlpha c with
      | false => exact absurd hx hne
      | true => rfl
    have h2 : 97 ≤ c.toNat ∧ c.toNat ≤ 122 := by simpa [isLowerAlpha] using hl
    have h3 := toNat_toUpperChar hl
    have h4 : (toUpperChar c).toNat = c.toNat := congrArg Char.toNat h
    omega
  · exact toUpperChar_eq_of_not_lower

/-! ## Generic list helpers shared by the converters -/

/-- Remove the trailing run of characters satisfying `p` (interior occurrences
are kept). -/
def dropTrailing (p : Char → Bool) : List Char → List Char
  | [] => []
  | c :: rest =>
      if p c = true ∧ dropTrailing p rest = [] then [] else c :: dropTrailing p rest

/-- Model of JavaScript `String.prototype.trim`: remove the leading and the
trailing run of whitespace characters. -/
def trimList (l : List Char) : List Char :=
  dropTrailing isJsWhitespace (l.dropWhile isJsWhitespace)

/-- Accumulator loop behind `tokenize`. `acc` is the (in-order) chunk of the
current token read so far; a token is emitted only when non-empty. -/
def tokenizeAux (p : Char → Bool) : List Char → List Char → List (List Char)
  | acc, [] => if acc = [] then [] else [acc]
  | acc, c :: rest =>
      if p c then
        (if acc = [] then tokenizeAux p [] rest else acc :: tokenizeAux p [] rest)
      else tokenizeAux p (acc ++ [c]) rest

/-- Model of `str.split(/[delims]+/).filter(Boolean)`: split on runs of
characters satisfying `p`, discarding empty tokens. -/
def tokenize (p : Char → Bool) (l : List Char) : List (List Char) :=
  tokenizeAux p [] l

/-! ## JavaScript input values

The converters accept a string, `null` or `undefined`; every other value
makes them throw a `TypeError`.  A thrown `TypeError` is modelled as
`Except.error` carrying the message, so an error produces no partial
output by construction. -/

inductive JSValue where
  | str (s : String)
  | jsNull
  | jsUndefined
  | num (n : Int)
  | boolean (b : Bool)
  | object
  | array
deriving DecidableEq

/-- The JavaScript `typeof` operator on the modelled values
(`typeof null` is `"object"`, as in JavaScript). -/
def typeofJS : JSValue → String
  | .str _ => "string"
  | .jsNull => "object"
  | .jsUndefined => "undefined"
  | .num _ => "number"
  | .boolean _ => "boolean"
  | .object => "object"
  | .array => "object"

/-- Is the value a string, `null` or `undefined` (the accepted inputs)? -/
def isStringOrNullish : JSValue → Bool
  | .str _ => true
  | .jsNull => true
  | .jsUndefined => true
  | _ => false

/-- Did the call return normally (as opposed to throwing)? -/
def isOkResult : Except String String → Bool
  | .ok _ => true
  | .error _ => false

/-! ## toKebabCase (source embedding)

The source is a chain of four regex passes:
`.replace(/([a-z])([A-Z])/g, '$1-$2')`, `.replace(/[\s_.\-]+/g, '-')`,
`.toLowerCase()`, `.replace(/^-+|-+$/g, '')`. -/

/-- First regex pass: insert `-` between each adjacent pair
(lowercase letter, uppercase letter). -/
def insertHyphens : List Char → List Char
  | [] => []
  | [c] => [c]
  | c1 :: c2 :: rest =>
      if isLowerAlpha c1 && isUpperAlpha c2 then
        c1 :: '-' :: insertHyphens (c2 :: rest)
      else
        c1 :: insertHyphens (c2 :: rest)

/-- Second regex pass, as a left-to-right state machine: `inRun` records
whether the previous character was part of a delimiter run already replaced
by a hyphen. -/
def collapseDelimsAux : Bool → List Char → List Char
  | _, [] => []
  | inRun, c :: rest =>
      if isKebabDelim c then
        (if inRun then collapseDelimsAux true rest
         else '-' :: collapseDelimsAux true rest)
      else c :: collapseDelimsAux false rest

/-- Second regex pass: replace each run of delimiter characters by one `-`. -/
def collapseDelims (l : List Char) : List Char :=
  collapseDelimsAux false l

/-- Fourth regex pass: remove leading and trailing hyphens. -/
def stripEdgeHyphens (l : List Char) : List Char :=
  dropTrailing isHyphenChar (l.dropWhile isHyphenChar)

/-- The string path of `toKebabCase`, over the character list. -/
def toKebabCaseList (l : List Char) : List Char :=
  stripEdgeHyphens ((collapseDelims (insertHyphens l)).map toLowerChar)

/-- The string path of `toKebabCase`. -/
def toKebabCaseStr (s : String) : String :=
  String.mk (toKebabCaseList s.data)

/-- `toKebabCase`, including the null/undefined and type-check prologue. -/
def toKebabCase : JSValue → Except String String
  | .jsNull => .ok ""
  | .jsUndefined => .ok ""
  | .str s => .ok (toKebabCaseStr s)
  | v => .error ("Expected string, received " ++ typeofJS v)

/-! ## toCamelCase (source embedding) -/

/-- `token.charAt(0).toUpperCase() + token.slice(1).toLowerCase()`. -/
def capitalizeToken : List Char → List Char
  | [] => []
  | c :: rest => toUpperChar c :: rest.map toLowerChar

/-- The test `/^[a-z][A-Za-z0-9]*$/.test(str)`. -/
def matchesCamelRegex : List Char → Bool
  | [] => false
  | c :: rest => isLowerAlpha c && rest.all isAlnumChar

/-- The string path of `toCamelCase`, over the character list. -/
def toCamelCaseList (input : List Char) : List Char :=
  let str := trimList input
  if str = [] then []
  else if str.any isCamelDelim = false then
    (if matchesCamelRegex str && str.any isUpperAlpha then str
     else if str = str.map toUpperChar then str.map toLowerChar
     else
       match str with
       | [] => []
       | c :: rest => toLowerChar c :: rest)
  else
    match tokenize isCamelDelim str with
    | [] => []
    | t :: ts => t.map toLowerChar ++ (ts.map capitalizeToken).flatten

/-- The string path of `toCamelCase`. -/
def toCamelCaseStr (s : String) : String :=
  String.mk (toCamelCaseList s.data)

/-- `toCamelCase`, including the null/undefined and type-check prologue. -/
def toCamelCase : JSValue → Except String String
  | .jsNull => .ok ""
  | .jsUndefined => .ok ""
  | .str s => .ok (toCamelCaseStr s)
  | _ => .error "toCamelCase: input must be a string, null, or undefined"

/-! ## toDotCase (source embedding) -/

/-- `next >= 'a' && next <= 'z'` where `next` may be past the end of the
token (comparisons against `undefined` are false in JavaScript). -/
def nextIsLowerB : List Char → Bool
  | n :: _ => isLowerAlpha n
  | [] => false

/-- The loop body of `splitCamel`: `buf` is the current part being built,
`prev` the previously scanned character. -/
def splitCamelAux : List Char → Char → List Char → List (List Char)
  | buf, _, [] => [buf]
  | buf, prev, ch :: rest =>
      if isUpperAlpha ch && (isLowerAlpha prev || (isUpperAlpha prev && nextIsLowerB rest)) then
        buf :: splitCamelAux [ch] ch rest
      else
        splitCamelAux (buf ++ [ch]) ch rest

/-- `splitCamel` of the source: split one delimiter-free token on camelCase
boundaries. -/
def splitCamel : List Char → List (List Char)
  | [] => []
  | c :: rest => splitCamelAux [c] c rest

/-- `Array.prototype.join` with a separator list. -/
def joinSep (sep : List Char) : List (List Char) → List Char
  | [] => []
  | [t] => t
  | t :: ts => t ++ sep ++ joinSep sep ts

/-- The string path of `toDotCase`, over the character list. -/
def toDotCaseList (input : List Char) : List Char :=
  let str := trimList input
  if str = [] then []
  else
    match tokenize isDotDelim str with
    | [] => []
    | tokens => joinSep ['.'] ((tokens.flatMap splitCamel).map (List.map toLowerChar))

/-- The string path of `toDotCase`. -/
def toDotCaseStr (s : String) : String :=
  String.mk (toDotCaseList s.data)

/-- `toDotCase`, including the null/undefined and type-check prologue. -/
def toDotCase : JSValue → Except String String
  | .jsNull => .ok ""
  | .jsUndefined => .ok ""
  | .str s => .ok (toDotCaseStr s)
  | _ => .error "toDotCase: input must be a string, null, or undefined"

/-! ## Specification-side reference definitions

The following definitions formalize the natural-language description of
the algorithms, phrased independently of the source's loop shapes, to be
compared against the embeddings above. -/

/-- Modelled from the spec: insert a hyphen between every lowercase letter
immediately followed by an uppercase letter, expressed positionally via the
list of adjacent pairs. -/
def specInsertHyphens (l : List Char) : List Char :=
  match l with
  | [] => []
  | c :: rest =>
      c :: (List.zip l rest).flatMap (fun q =>
        if isLowerAlpha q.1 && isUpperAlpha q.2 then ['-', q.2] else [q.2])

/-- Modelled from the spec: replace every run of one or more kebab delimiter
characters with a single hyphen, expressed by skipping a maximal run at
once. -/
def specCollapseDelims : List Char → List Char
  | [] => []
  | c :: rest =>
      if isKebabDelim c then '-' :: specCollapseDelims (rest.dropWhile isKebabDelim)
      else c :: specCollapseDelims rest
termination_by l => l.length
decreasing_by
  · have := (List.dropWhile_sublist isKebabDelim (l := rest)).length_le
    simp only [List.length_cons]
    omega
  · simp only [List.length_cons]
    omega

/-- Modelled from the spec: strip leading and trailing hyphens, expressed by
dropping from the front and, after reversal, again from the front. -/
def specStripHyphens (l : List Char) : List Char :=
  (((l.dropWhile isHyphenChar).reverse).dropWhile isHyphenChar).reverse

/-- Modelled from the spec: the four-step reference algorithm for
`toKebabCase` — insert hyphens at camelCase boundaries, collapse delimiter
runs to single hyphens, lowercase, strip edge hyphens. -/
def specKebabList (l : List Char) : List Char :=
  specStripHyphens ((specCollapseDelims (specInsertHyphens l)).map toLowerChar)

/-- Modelled from the spec: the four-step reference algorithm for
`toKebabCase`, at the string level. -/
def specKebabStr (s : String) : String :=
  String.mk (specKebabList s.data)

/-- Modelled from the spec: split on runs of delimiter characters discarding
empty tokens, expressed by skipping delimiters and taking a maximal
delimiter-free run as each token. -/
def specTokenize (p : Char → Bool) : List Char → List (List Char)
  | [] => []
  | c :: rest =>
      if p c then specTokenize p rest
      else (c :: rest.takeWhile (fun d => !p d)) ::
             specTokenize p (rest.dropWhile (fun d => !p d))
termination_by l => l.length
decreasing_by
  · simp only [List.length_cons]
    omega
  · have := (List.dropWhile_sublist (fun d => !p d) (l := rest)).length_le
    simp only [List.length_cons]
    omega

/-- The character of `t` at index `i`, with an out-of-range placeholder that
is neither a letter nor a delimiter. -/
def charAt (t : List Char) (i : Nat) : Char :=
  (t.drop i).headD ' '

/-- Modelled from the spec: a camelCase boundary lies before position `i`
exactly when the character there is uppercase and either the previous
character is lowercase, or the previous character is uppercase and the next
character is lowercase. -/
def camelBoundary (t : List Char) (i : Nat) : Bool :=
  isUpperAlpha (charAt t i) &&
    (isLowerAlpha (charAt t (i - 1)) ||
      (isUpperAlpha (charAt t (i - 1)) && isLowerAlpha (charAt t (i + 1))))

/-- Modelled from the spec: the left-to-right scan splitting a token at each
position satisfying `camelBoundary`, carrying the current part in `buf`. -/
def specSplitCamelGo (t : List Char) (i : Nat) (buf : List Char) : List (List Char) :=
  if _hlt : i < t.length then
    (if camelBoundary t i then buf :: specSplitCamelGo t (i + 1) [charAt t i]
     else specSplitCamelGo t (i + 1) (buf ++ [charAt t i]))
  else [buf]
termination_by t.length - i
decreasing_by
  · omega
  · omega

/-- Modelled from the spec: split a token into parts, starting a new part at
every index satisfying `camelBoundary`. -/
def specSplitCamel (t : List Char) : List (List Char) :=
  match t with
  | [] => []
  | c :: _ => specSplitCamelGo t 1 [c]

/-- Modelled from the spec: the delimiter path of `toCamelCase` — split the
trimmed input on delimiter runs, lowercase the first token, capitalize the
first character and lowercase the rest of each subsequent token, and
concatenate. -/
def specCamelDelimPath (l : List Char) : List Char :=
  match specTokenize isCamelDelim (trimList l) with
  | [] => []
  | t :: ts =>
      t.map toLowerChar ++
        (ts.map (fun tok =>
          match tok with
          | [] => []
          | c :: rest => toUpperChar c :: rest.map toLowerChar)).flatten

/-- Modelled from the spec: the single-token path of `toCamelCase` — return
the token unchanged when it starts with a lowercase letter, consists only of
letters and digits and contains an uppercase letter; otherwise lowercase it
entirely when it contains no lowercase letter; otherwise lowercase only its
first character. -/
def specCamelSinglePath (t : List Char) : List Char :=
  if (match t with
      | [] => false
      | c :: _ => isLowerAlpha c) && t.all isAlnumChar && t.any isUpperAlpha then t
  else if t.all (fun c => !isLowerAlpha c) then t.map toLowerChar
  else
    match t with
    | [] => []
    | c :: rest => toLowerChar c :: rest

/-- Modelled from the spec: the full `toDotCase` pipeline — split the trimmed
input on delimiter runs, split each token at camelCase boundaries, lowercase
every part and join the parts with single dots. -/
def specDotFullList (l : List Char) : List Char :=
  joinSep ['.']
    (((specTokenize isDotDelim (trimList l)).flatMap specSplitCamel).map
      (List.map toLowerChar))

/-- Modelled from the spec (claim wording): `toDotCase` without the camelCase
sub-splitting step — split the trimmed input on delimiter runs, lowercase
every token and join with single dots. -/
def specDotNoCamelList (l : List Char) : List Char :=
  joinSep ['.'] ((specTokenize isDotDelim (trimList l)).map (List.map toLowerChar))

/-- String-level version of `specDotNoCamelList`. -/
def specDotNoCamelStr (s : String) : String :=
  String.mk (specDotNoCamelList s.data)

/-- String-level version of `specDotFullList`. -/
def specDotFullStr (s : String) : String :=
  String.mk (specDotFullList s.data)

/-! ## Generic lemmas about characters and list helpers -/

theorem char_eq_of_toNat_eq {c d : Char} (h : c.toNat = d.toNat) : c = d :=
  Char.ext (UInt32.toNat.inj h)

theorem isKebabDelim_of_hyphen {c : Char} (h : isHyphenChar c = true) :
    isKebabDelim c = true := by
  simp [isKebabDelim, h]

theorem isDotDelim_of_hyphen {c : Char} (h : isHyphenChar c = true) :
    isDotDelim c = true := by
  simp [isDotDelim, h]

theorem eq_hyphen_of_isHyphenChar {c : Char} (h : isHyphenChar c = true) : c = '-' := by
  apply char_eq_of_toNat_eq
  simpa [isHyphenChar] using h

theorem map_eq_self_iff_fixed {α : Type} {f : α → α} {l : List α} :
    l.map f = l ↔ ∀ c ∈ l, f c = c := by
  induction l with
  | nil => simp
  | cons c rest ih =>
    simp only [List.map_cons, List.cons.injEq, List.mem_cons, forall_eq_or_imp]
    rw [ih]

theorem map_eq_self_of_fixed {α : Type} {f : α → α} {l : List α}
    (h : ∀ c ∈ l, f c = c) : l.map f = l :=
  map_eq_self_iff_fixed.mpr h

theorem dropWhile_eq_self_of_head {p : Char → Bool} {l : List Char}
    (h : ∀ c, l.head? = some c → p c = false) : l.dropWhile p = l := by
  cases l with
  | nil => rfl
  | cons c rest =>
    apply List.dropWhile_cons_of_neg
    simp [h c rfl]

theorem mem_of_mem_dropWhile {p : Char → Bool} {l : List Char} {c : Char}
    (h : c ∈ l.dropWhile p) : c ∈ l :=
  (List.dropWhile_sublist p).mem h

/-! ## Lemmas about dropTrailing -/

/-- Does the list end in a character satisfying `p`? -/
def endsWithP (p : Char → Bool) : List Char → Bool
  | [] => false
  | c :: rest => if rest = [] then p c else endsWithP p rest

theorem dropTrailing_cons (p : Char → Bool) (c : Char) (rest : List Char) :
    dropTrailing p (c :: rest) =
      if p c = true ∧ dropTrailing p rest = [] then [] else c :: dropTrailing p rest := rfl

theorem endsWithP_cons (p : Char → Bool) (c : Char) (rest : List Char) :
    endsWithP p (c :: rest) = if rest = [] then p c else endsWithP p rest := rfl

theorem dropTrailing_eq_self {p : Char → Bool} {l : List Char}
    (h : endsWithP p l = false) : dropTrailing p l = l := by
  induction l with
  | nil => rfl
  | cons c rest ih =>
    rw [dropTrailing_cons]
    cases hr : rest with
    | nil =>
      subst hr
      rw [endsWithP_cons, if_pos rfl] at h
      simp [h, dropTrailing]
    | cons c2 rest2 =>
      subst hr
      rw [endsWithP_cons, if_neg (by simp)] at h
      rw [ih h, if_neg (by simp)]

theorem endsWithP_dropTrailing (p : Char → Bool) (l : List Char) :
    endsWithP p (dropTrailing p l) = false := by
  induction l with
  | nil => rfl
  | cons c rest ih =>
    rw [dropTrailing_cons]
    by_cases hc : p c = true ∧ dropTrailing p rest = []
    · rw [if_pos hc]
      rfl
    · rw [if_neg hc]
      rw [endsWithP_cons]
      cases hd : dropTrailing p rest with
      | nil =>
        rw [if_pos rfl]
        rcases Decidable.not_and_iff_or_not.mp hc with h1 | h1
        · simpa using h1
        · exact absurd hd h1
      | cons d ds =>
        rw [if_neg (by simp), ← hd]
        exact ih

theorem mem_dropTrailing {p : Char → Bool} {l : List Char} {c : Char}
    (h : c ∈ dropTrailing p l) : c ∈ l := by
  induction l with
  | nil => simp [dropTrailing] at h
  | cons d rest ih =>
    rw [dropTrailing_cons] at h
    by_cases hc : p d = true ∧ dropTrailing p rest = []
    · rw [if_pos hc] at h
      simp at h
    · rw [if_neg hc] at h
      rcases List.mem_cons.mp h with h1 | h1
      · simp [h1]
      · exact List.mem_cons_of_mem _ (ih h1)

theorem head?_dropTrailing {p : Char → Bool} {l : List Char}
    (h : dropTrailing p l ≠ []) : (dropTrailing p l).head? = l.head? := by
  cases l with
  | nil => rfl
  | cons c rest =>
    rw [dropTrailing_cons] at h ⊢
    by_cases hc : p c = true ∧ dropTrailing p rest = []
    · exact absurd (if_pos hc) h
    · rw [if_neg hc]
      rfl

theorem dropTrailing_append_last (p : Char → Bool) (xs : List Char) (c : Char) :
    dropTrailing p (xs ++ [c]) = if p c = true then dropTrailing p xs else xs ++ [c] := by
  induction xs with
  | nil =>
    rw [List.nil_append, dropTrailing_cons]
    by_cases hc : p c = true <;> simp [hc, dropTrailing]
  | cons x xs ih =>
    rw [List.cons_append, dropTrailing_cons, ih]
    by_cases hc : p c = true
    · rw [if_pos hc, if_pos hc, dropTrailing_cons]
    · rw [if_neg hc, if_neg hc, if_neg (by simp)]

theorem dropTrailing_eq_reverse_dropWhile (p : Char → Bool) (l : List Char) :
    dropTrailing p l = ((l.reverse.dropWhile p)).reverse := by
  induction l using List.reverseRecOn with
  | nil => rfl
  | append_singleton xs c ih =>
    rw [dropTrailing_append_last, List.reverse_append, List.reverse_cons, List.reverse_nil,
      List.nil_append, List.singleton_append, List.dropWhile_cons]
    by_cases hc : p c = true
    · rw [if_pos hc, if_pos hc, ih]
    · rw [if_neg hc, if_neg (by simp [hc]), List.reverse_cons, List.reverse_reverse]

/-! ## Shape invariants of kebab-case output -/

/-- Is the first character a hyphen? -/
def headIsHyphen : List Char → Bool
  | [] => false
  | c :: _ => isHyphenChar c

/-- No two adjacent hyphens occur in the list. -/
def noAdjHyphens : List Char → Bool
  | [] => true
  | c :: rest => !(isHyphenChar c && headIsHyphen rest) && noAdjHyphens rest

theorem noAdjHyphens_cons (c : Char) (rest : List Char) :
    noAdjHyphens (c :: rest) = (!(isHyphenChar c && headIsHyphen rest) && noAdjHyphens rest) :=
  rfl

theorem noAdjHyphens_of_cons {c : Char} {rest : List Char}
    (h : noAdjHyphens (c :: rest) = true) : noAdjHyphens rest = true := by
  rw [noAdjHyphens_cons, Bool.and_eq_true] at h
  exact h.2

theorem headIsHyphen_eq_of_head?_eq {l m : List Char} (h : l.head? = m.head?) :
    headIsHyphen l = headIsHyphen m := by
  cases l with
  | nil =>
    cases m with
    | nil => rfl
    | cons d ds => simp at h
  | cons c cs =>
    cases m with
    | nil => simp at h
    | cons d ds =>
      simp only [List.head?_cons, Option.some.injEq] at h
      simp [headIsHyphen, h]

theorem noAdjHyphens_dropWhile {p : Char → Bool} {l : List Char}
    (h : noAdjHyphens l = true) : noAdjHyphens (l.dropWhile p) = true := by
  induction l with
  | nil => exact h
  | cons c rest ih =>
    rw [List.dropWhile_cons]
    by_cases hc : p c = true
    · rw [if_pos hc]
      exact ih (noAdjHyphens_of_cons h)
    · rw [if_neg hc]
      exact h

theorem noAdjHyphens_dropTrailing {p : Char → Bool} {l : List Char}
    (h : noAdjHyphens l = true) : noAdjHyphens (dropTrailing p l) = true := by
  induction l with
  | nil => exact h
  | cons c rest ih =>
    rw [dropTrailing_cons]
    by_cases hc : p c = true ∧ dropTrailing p rest = []
    · rw [if_pos hc]
      rfl
    · rw [if_neg hc]
      rw [noAdjHyphens_cons, Bool.and_eq_true]
      refine ⟨?_, ih (noAdjHyphens_of_cons h)⟩
      cases hd : dropTrailing p rest with
      | nil => simp [headIsHyphen]
      | cons d ds =>
        have hh : (dropTrailing p rest).head? = rest.head? :=
          head?_dropTrailing (by rw [hd]; simp)
        rw [← hd, headIsHyphen_eq_of_head?_eq hh]
        rw [noAdjHyphens_cons, Bool.and_eq_true] at h
        exact h.1

/-! ## The four kebab passes: identity on already-normalized input -/

theorem insertHyphens_eq_self {l : List Char}
    (h : ∀ c ∈ l, isUpperAlpha c = false) : insertHyphens l = l := by
  induction l with
  | nil => rfl
  | cons c rest ih =>
    cases rest with
    | nil => rfl
    | cons c2 rest2 =>
      rw [insertHyphens, if_neg]
      · rw [ih (fun d hd => h d (List.mem_cons_of_mem _ hd))]
      · have h2 : isUpperAlpha c2 = false := h c2 (by simp)
        simp [h2]

theorem collapseDelimsAux_eq_self {l : List Char}
    (hd : ∀ c ∈ l, isKebabDelim c = true → isHyphenChar c = true)
    (hadj : noAdjHyphens l = true) :
    ∀ b, (b = true → headIsHyphen l = false) → collapseDelimsAux b l = l := by
  induction l with
  | nil => intro b _; rfl
  | cons c rest ih =>
    intro b hb
    by_cases hc : isKebabDelim c = true
    · have hh : isHyphenChar c = true := hd c (by simp) hc
      have hbf : b = false := by
        cases b with
        | false => rfl
        | true =>
          have := hb rfl
          rw [headIsHyphen] at this
          rw [hh] at this
          exact absurd this (by simp)
      subst hbf
      rw [collapseDelimsAux, if_pos hc, if_neg (by simp)]
      have hhead : headIsHyphen rest = false := by
        rw [noAdjHyphens_cons, Bool.and_eq_true] at hadj
        have := hadj.1
        rw [hh] at this
        simpa using this
      rw [ih (fun d hd2 hk => hd d (List.mem_cons_of_mem _ hd2) hk)
        (noAdjHyphens_of_cons hadj) true (fun _ => hhead)]
      rw [eq_hyphen_of_isHyphenChar hh]
    · rw [collapseDelimsAux, if_neg hc]
      rw [ih (fun d hd2 hk => hd d (List.mem_cons_of_mem _ hd2) hk)
        (noAdjHyphens_of_cons hadj) false (by simp)]

/-! ## Shape of the collapse output -/

theorem mem_collapseDelimsAux {l : List Char} {b : Bool} {c : Char}
    (h : c ∈ collapseDelimsAux b l) : c = '-' ∨ (c ∈ l ∧ isKebabDelim c = false) := by
  induction l generalizing b with
  | nil => simp [collapseDelimsAux] at h
  | cons d rest ih =>
    rw [collapseDelimsAux] at h
    by_cases hdel : isKebabDelim d = true
    · rw [if_pos hdel] at h
      cases b with
      | true =>
        rw [if_pos rfl] at h
        rcases ih h with h1 | h1
        · exact Or.inl h1
        · exact Or.inr ⟨List.mem_cons_of_mem _ h1.1, h1.2⟩
      | false =>
        rw [if_neg (by simp)] at h
        rcases List.mem_cons.mp h with h1 | h1
        · exact Or.inl h1
        · rcases ih h1 with h2 | h2
          · exact Or.inl h2
          · exact Or.inr ⟨List.mem_cons_of_mem _ h2.1, h2.2⟩
    · rw [if_neg hdel] at h
      rcases List.mem_cons.mp h with h1 | h1
      · subst h1
        exact Or.inr ⟨by simp, by simpa using hdel⟩
      · rcases ih h1 with h2 | h2
        · exact Or.inl h2
        · exact Or.inr ⟨List.mem_cons_of_mem _ h2.1, h2.2⟩

theorem headIsHyphen_collapseDelimsAux_true (l : List Char) :
    headIsHyphen (collapseDelimsAux true l) = false := by
  induction l with
  | nil => rfl
  | cons c rest ih =>
    rw [collapseDelimsAux]
    by_cases hc : isKebabDelim c = true
    · rw [if_pos hc, if_pos rfl]
      exact ih
    · rw [if_neg hc]
      rw [headIsHyphen]
      cases hh : isHyphenChar c with
      | false => rfl
      | true => exact absurd (isKebabDelim_of_hyphen hh) (by simpa using hc)

theorem noAdjHyphens_collapseDelimsAux (l : List Char) (b : Bool) :
    noAdjHyphens (collapseDelimsAux b l) = true := by
  induction l generalizing b with
  | nil => rfl
  | cons c rest ih =>
    rw [collapseDelimsAux]
    by_cases hc : isKebabDelim c = true
    · rw [if_pos hc]
      cases b with
      | true =>
        rw [if_pos rfl]
        exact ih true
      | false =>
        rw [if_neg (by simp), noAdjHyphens_cons, Bool.and_eq_true]
        refine ⟨?_, ih true⟩
        rw [headIsHyphen_collapseDelimsAux_true]
        simp
    · rw [if_neg hc, noAdjHyphens_cons, Bool.and_eq_true]
      refine ⟨?_, ih false⟩
      have hh : isHyphenChar c = false := by
        cases hh : isHyphenChar c with
        | false => rfl
        | true => exact absurd (isKebabDelim_of_hyphen hh) (by simpa using hc)
      rw [hh]
      simp

/-! ## Invariants through lowercasing and edge-stripping -/

theorem headIsHyphen_map_toLowerChar (l : List Char) :
    headIsHyphen (l.map toLowerChar) = headIsHyphen l := by
  cases l with
  | nil => rfl
  | cons c rest =>
    rw [List.map_cons]
    rw [headIsHyphen, headIsHyphen, isHyphenChar_toLowerChar]

theorem noAdjHyphens_map_toLowerChar {l : List Char}
    (h : noAdjHyphens l = true) : noAdjHyphens (l.map toLowerChar) = true := by
  induction l with
  | nil => rfl
  | cons c rest ih =>
    rw [List.map_cons, noAdjHyphens_cons, Bool.and_eq_true]
    rw [noAdjHyphens_cons, Bool.and_eq_true] at h
    refine ⟨?_, ih h.2⟩
    rw [isHyphenChar_toLowerChar, headIsHyphen_map_toLowerChar]
    exact h.1

theorem headIsHyphen_stripEdgeHyphens (l : List Char) :
    headIsHyphen (stripEdgeHyphens l) = false := by
  rw [stripEdgeHyphens]
  cases hd : dropTrailing isHyphenChar (l.dropWhile isHyphenChar) with
  | nil => rfl
  | cons c cs =>
    have hne : dropTrailing isHyphenChar (l.dropWhile isHyphenChar) ≠ [] := by
      rw [hd]; simp
    have hh := head?_dropTrailing hne
    rw [hd] at hh
    have := List.head?_dropWhile_not isHyphenChar l
    rw [← hh] at this
    simp only [List.head?_cons] at this
    rw [headIsHyphen]
    exact this

theorem endsWith_stripEdgeHyphens (l : List Char) :
    endsWithP isHyphenChar (stripEdgeHyphens l) = false :=
  endsWithP_dropTrailing isHyphenChar _

theorem mem_stripEdgeHyphens {l : List Char} {c : Char}
    (h : c ∈ stripEdgeHyphens l) : c ∈ l :=
  mem_of_mem_dropWhile (mem_dropTrailing h)

theorem noAdjHyphens_stripEdgeHyphens {l : List Char}
    (h : noAdjHyphens l = true) : noAdjHyphens (stripEdgeHyphens l) = true :=
  noAdjHyphens_dropTrailing (noAdjHyphens_dropWhile h)

/-! ## The kebab-case output invariant and idempotence -/

/-- Shape of any `toKebabCase` output: no uppercase letters, every delimiter
character is a hyphen, no two adjacent hyphens, and no hyphen at either
edge. -/
def kebabInv (l : List Char) : Prop :=
  (∀ c ∈ l, isUpperAlpha c = false) ∧
  (∀ c ∈ l, isKebabDelim c = true → isHyphenChar c = true) ∧
  noAdjHyphens l = true ∧ headIsHyphen l = false ∧ endsWithP isHyphenChar l = false

theorem toKebabCaseList_inv (l : List Char) : kebabInv (toKebabCaseList l) := by
  rw [toKebabCaseList]
  refine ⟨?_, ?_, ?_, headIsHyphen_stripEdgeHyphens _, endsWith_stripEdgeHyphens _⟩
  · intro c hc
    have hm := mem_stripEdgeHyphens hc
    rcases List.mem_map.mp hm with ⟨d, _, hd2⟩
    rw [← hd2]
    exact isUpperAlpha_toLowerChar d
  · intro c hc hk
    have hm := mem_stripEdgeHyphens hc
    rcases List.mem_map.mp hm with ⟨d, hd1, hd2⟩
    subst hd2
    rw [isHyphenChar_toLowerChar]
    rw [isKebabDelim_toLowerChar] at hk
    rcases mem_collapseDelimsAux hd1 with h1 | h1
    · rw [h1]
      rfl
    · rw [hk] at h1
      exact absurd h1.2 (by simp)
  · exact noAdjHyphens_stripEdgeHyphens
      (noAdjHyphens_map_toLowerChar (noAdjHyphens_collapseDelimsAux _ false))

theorem toKebabCaseList_fixed {l : List Char} (h : kebabInv l) :
    toKebabCaseList l = l := by
  obtain ⟨hup, hdel, hadj, hhead, hend⟩ := h
  rw [toKebabCaseList, insertHyphens_eq_self hup]
  rw [collapseDelims, collapseDelimsAux_eq_self hdel hadj false (by simp)]
  rw [map_eq_self_of_fixed (fun c hc => toLowerChar_eq_of_not_upper (hup c hc))]
  rw [stripEdgeHyphens, dropWhile_eq_self_of_head, dropTrailing_eq_self hend]
  intro c hc
  cases l with
  | nil => simp at hc
  | cons d rest =>
    simp only [List.head?_cons, Option.some.injEq] at hc
    subst hc
    rw [headIsHyphen] at hhead
    exact hhead

theorem toKebabCaseList_idem (l : List Char) :
    toKebabCaseList (toKebabCaseList l) = toKebabCaseList l :=
  toKebabCaseList_fixed (toKebabCaseList_inv l)

/-! ## Equivalence of the kebab passes with their spec formulations -/

theorem insertHyphens_eq_spec (l : List Char) : insertHyphens l = specInsertHyphens l := by
  induction l with
  | nil => rfl
  | cons c rest ih =>
    cases rest with
    | nil => rfl
    | cons c2 rest2 =>
      rw [specInsertHyphens, List.zip_cons_cons, List.flatMap_cons]
      rw [insertHyphens]
      by_cases hc : (isLowerAlpha c && isUpperAlpha c2) = true
      · rw [if_pos hc, if_pos hc, ih, specInsertHyphens]
        rfl
      · rw [if_neg hc, if_neg hc, ih, specInsertHyphens]
        rfl

theorem collapseDelimsAux_true_eq (l : List Char) :
    collapseDelimsAux true l = collapseDelimsAux false (l.dropWhile isKebabDelim) := by
  induction l with
  | nil => rfl
  | cons c rest ih =>
    by_cases hc : isKebabDelim c = true
    · rw [collapseDelimsAux, if_pos hc, if_pos rfl, List.dropWhile_cons_of_pos hc, ih]
    · rw [collapseDelimsAux, if_neg hc,
        List.dropWhile_cons_of_neg (by simpa using hc)]
      rw [collapseDelimsAux, if_neg hc]

theorem collapseDelims_eq_spec (l : List Char) :
    collapseDelims l = specCollapseDelims l := by
  rw [collapseDelims]
  induction l using specCollapseDelims.induct with
  | case1 =>
    rw [specCollapseDelims]
    rfl
  | case2 c rest hdel ih =>
    rw [collapseDelimsAux, if_pos hdel, if_neg (by simp), specCollapseDelims, if_pos hdel]
    rw [collapseDelimsAux_true_eq, ih]
  | case3 c rest hdel ih =>
    rw [collapseDelimsAux, if_neg hdel, specCollapseDelims, if_neg hdel, ih]

theorem stripEdgeHyphens_eq_spec (l : List Char) :
    stripEdgeHyphens l = specStripHyphens l := by
  rw [stripEdgeHyphens, specStripHyphens, dropTrailing_eq_reverse_dropWhile]

theorem toKebabCaseList_eq_spec (l : List Char) : toKebabCaseList l = specKebabList l := by
  rw [toKebabCaseList, specKebabList, insertHyphens_eq_spec, collapseDelims_eq_spec,
    stripEdgeHyphens_eq_spec]

/-! ## Equivalence of tokenize with its spec formulation -/

theorem tokenizeAux_append_clean {p : Char → Bool} {t : List Char}
    (h : ∀ c ∈ t, p c = false) :
    ∀ acc rest, tokenizeAux p acc (t ++ rest) = tokenizeAux p (acc ++ t) rest := by
  induction t with
  | nil => intro acc rest; rw [List.nil_append, List.append_nil]
  | cons c t2 ih =>
    intro acc rest
    rw [List.cons_append, tokenizeAux, if_neg (by simp [h c (by simp)])]
    rw [ih (fun d hd => h d (List.mem_cons_of_mem _ hd))]
    congr 1
    simp

theorem tokenize_eq_spec_strong (p : Char → Bool) (l : List Char) :
    tokenize p l = specTokenize p l ∧
    ∀ acc, acc ≠ [] → (∀ c, l.head? = some c → p c = true) →
      tokenizeAux p acc l = acc :: specTokenize p l := by
  induction l using specTokenize.induct p with
  | case1 =>
    constructor
    · rw [specTokenize]
      rfl
    · intro acc hacc _
      rw [specTokenize, tokenizeAux, if_neg hacc]
  | case2 c rest hdel ih =>
    constructor
    · rw [tokenize, tokenizeAux, if_pos hdel, if_pos rfl, specTokenize, if_pos hdel]
      exact ih.1
    · intro acc hacc _
      rw [tokenizeAux, if_pos hdel, if_neg hacc, specTokenize, if_pos hdel]
      rw [← tokenize]
      rw [ih.1]
  | case3 c rest hdel ih =>
    have hq : ∀ d ∈ rest.takeWhile (fun d => !p d), p d = false := by
      intro d hd
      have := List.mem_takeWhile_imp hd
      simpa using this
    have hsplit : rest.takeWhile (fun d => !p d) ++ rest.dropWhile (fun d => !p d) = rest :=
      List.takeWhile_append_dropWhile _ _
    have hhead : ∀ d, (rest.dropWhile (fun d => !p d)).head? = some d → p d = true := by
      intro d hd
      have := List.head?_dropWhile_not (fun d => !p d) rest
      rw [hd] at this
      simpa using this
    constructor
    · have key := tokenizeAux_append_clean hq [c] (rest.dropWhile (fun d => !p d))
      rw [hsplit] at key
      rw [tokenize, tokenizeAux, if_neg hdel, List.nil_append, key,
        ih.2 ([c] ++ rest.takeWhile (fun d => !p d)) (by simp) hhead,
        List.singleton_append, specTokenize, if_neg hdel]
    · intro acc hacc hc
      have := hc c rfl
      rw [this] at hdel
      exact absurd rfl hdel
  
theorem tokenize_eq_spec (p : Char → Bool) (l : List Char) :
    tokenize p l = specTokenize p l :=
  (tokenize_eq_spec_strong p l).1

/-! ## Equivalence of splitCamel with its boundary-predicate formulation -/

theorem nextIsLowerB_eq_headD (l : List Char) :
    nextIsLowerB l = isLowerAlpha (l.headD ' ') := by
  cases l with
  | nil => decide
  | cons n rest => rfl

theorem charAt_of_lt {t : List Char} {i : Nat} (h : i < t.length) :
    charAt t i = t[i] := by
  rw [charAt, List.drop_eq_getElem_cons h]
  rfl

theorem splitCamelAux_eq_go_bounded (t : List Char) :
    ∀ (n i : Nat) (buf : List Char), t.length - i ≤ n → 1 ≤ i →
      splitCamelAux buf (charAt t (i - 1)) (t.drop i) = specSplitCamelGo t i buf := by
  intro n
  induction n with
  | zero =>
    intro i buf hle _
    have hge : t.length ≤ i := by omega
    rw [List.drop_eq_nil_of_le hge]
    rw [specSplitCamelGo, dif_neg (by omega)]
    rfl
  | succ n ih =>
    intro i buf hle hi
    by_cases h : i < t.length
    · have hdrop : t.drop i = t[i] :: t.drop (i + 1) := List.drop_eq_getElem_cons h
      have hci : charAt t i = t[i] := charAt_of_lt h
      have hnext : nextIsLowerB (t.drop (i + 1)) = isLowerAlpha (charAt t (i + 1)) := by
        rw [nextIsLowerB_eq_headD, charAt]
      have hcond : (isUpperAlpha t[i] &&
          (isLowerAlpha (charAt t (i - 1)) ||
            (isUpperAlpha (charAt t (i - 1)) && nextIsLowerB (t.drop (i + 1))))) =
          camelBoundary t i := by
        rw [camelBoundary, hci, hnext]
      rw [hdrop, splitCamelAux, hcond]
      rw [specSplitCamelGo, dif_pos h]
      by_cases hb : camelBoundary t i = true
      · rw [if_pos hb, if_pos hb, hci]
        have := ih (i + 1) [t[i]] (by omega) (by omega)
        rw [Nat.add_sub_cancel, hci] at this
        exact congrArg (buf :: ·) this
      · rw [if_neg hb, if_neg hb, hci]
        have := ih (i + 1) (buf ++ [t[i]]) (by omega) (by omega)
        rw [Nat.add_sub_cancel, hci] at this
        exact this
    · have hge : t.length ≤ i := by omega
      rw [List.drop_eq_nil_of_le hge]
      rw [specSplitCamelGo, dif_neg (by omega)]
      rfl

theorem splitCamel_eq_spec (t : List Char) : splitCamel t = specSplitCamel t := by
  cases t with
  | nil => rfl
  | cons c rest =>
    rw [splitCamel, specSplitCamel]
    have := splitCamelAux_eq_go_bounded (c :: rest) ((c :: rest).length - 1) 1 [c]
      le_rfl (by omega)
    have hc0 : charAt (c :: rest) 0 = c := by
      rw [charAt, List.drop_zero]
      rfl
    have hd1 : (c :: rest).drop 1 = rest := rfl
    rw [hc0, hd1] at this
    exact this

/-! ## Structure of tokens and camel parts -/

theorem tokenizeAux_tokens_clean {p : Char → Bool} :
    ∀ (l acc : List Char), (∀ c ∈ acc, p c = false) →
      ∀ t ∈ tokenizeAux p acc l, t ≠ [] ∧ ∀ c ∈ t, p c = false := by
  intro l
  induction l with
  | nil =>
    intro acc hacc t ht
    rw [tokenizeAux] at ht
    by_cases h : acc = []
    · rw [if_pos h] at ht
      simp at ht
    · rw [if_neg h] at ht
      rcases List.mem_singleton.mp ht with rfl
      exact ⟨h, hacc⟩
  | cons c rest ih =>
    intro acc hacc t ht
    rw [tokenizeAux] at ht
    by_cases hc : p c = true
    · rw [if_pos hc] at ht
      by_cases h : acc = []
      · rw [if_pos h] at ht
        exact ih [] (by simp) t ht
      · rw [if_neg h] at ht
        rcases List.mem_cons.mp ht with rfl | ht2
        · exact ⟨h, hacc⟩
        · exact ih [] (by simp) t ht2
    · rw [if_neg hc] at ht
      refine ih (acc ++ [c]) ?_ t ht
      intro d hd
      rcases List.mem_append.mp hd with h1 | h1
      · exact hacc d h1
      · rcases List.mem_singleton.mp h1 with rfl
        simpa using hc

theorem tokenize_tokens_clean {p : Char → Bool} {l : List Char} :
    ∀ t ∈ tokenize p l, t ≠ [] ∧ ∀ c ∈ t, p c = false :=
  tokenizeAux_tokens_clean l [] (by simp)

theorem splitCamelAux_parts_shape :
    ∀ (l buf : List Char) (prev : Char), buf ≠ [] →
      ∀ t ∈ splitCamelAux buf prev l, t ≠ [] ∧ ∀ c ∈ t, c ∈ buf ∨ c ∈ l := by
  intro l
  induction l with
  | nil =>
    intro buf prev hbuf t ht
    rw [splitCamelAux] at ht
    rcases List.mem_singleton.mp ht with rfl
    exact ⟨hbuf, fun c hc => Or.inl hc⟩
  | cons ch rest ih =>
    intro buf prev hbuf t ht
    rw [splitCamelAux] at ht
    by_cases hb : (isUpperAlpha ch &&
        (isLowerAlpha prev || (isUpperAlpha prev && nextIsLowerB rest))) = true
    · rw [if_pos hb] at ht
      rcases List.mem_cons.mp ht with rfl | ht2
      · exact ⟨hbuf, fun c hc => Or.inl hc⟩
      · obtain ⟨hne, hsub⟩ := ih [ch] ch (by simp) t ht2
        refine ⟨hne, fun c hc => ?_⟩
        rcases hsub c hc with h1 | h1
        · rcases List.mem_singleton.mp h1 with rfl
          exact Or.inr (by simp)
        · exact Or.inr (List.mem_cons_of_mem _ h1)
    · rw [if_neg hb] at ht
      obtain ⟨hne, hsub⟩ := ih (buf ++ [ch]) ch (by simp) t ht
      refine ⟨hne, fun c hc => ?_⟩
      rcases hsub c hc with h1 | h1
      · rcases List.mem_append.mp h1 with h2 | h2
        · exact Or.inl h2
        · rcases List.mem_singleton.mp h2 with rfl
          exact Or.inr (by simp)
      · exact Or.inr (List.mem_cons_of_mem _ h1)

theorem splitCamel_parts_shape {t : List Char} :
    ∀ q ∈ splitCamel t, q ≠ [] ∧ ∀ c ∈ q, c ∈ t := by
  intro q hq
  cases t with
  | nil => simp [splitCamel] at hq
  | cons c rest =>
    rw [splitCamel] at hq
    obtain ⟨hne, hsub⟩ := splitCamelAux_parts_shape rest [c] c (by simp) q hq
    refine ⟨hne, fun d hd => ?_⟩
    rcases hsub d hd with h1 | h1
    · rcases List.mem_singleton.mp h1 with rfl
      simp
    · exact List.mem_cons_of_mem _ h1

theorem splitCamelAux_no_upper {l : List Char} (h : ∀ c ∈ l, isUpperAlpha c = false) :
    ∀ (buf : List Char) (prev : Char), splitCamelAux buf prev l = [buf ++ l] := by
  induction l with
  | nil => intro buf prev; rw [splitCamelAux, List.append_nil]
  | cons ch rest ih =>
    intro buf prev
    rw [splitCamelAux, if_neg (by simp [h ch (by simp)])]
    rw [ih (fun d hd => h d (List.mem_cons_of_mem _ hd))]
    simp

theorem splitCamel_no_upper {t : List Char} (hne : t ≠ [])
    (h : ∀ c ∈ t, isUpperAlpha c = false) : splitCamel t = [t] := by
  cases t with
  | nil => exact absurd rfl hne
  | cons c rest =>
    rw [splitCamel, splitCamelAux_no_upper (fun d hd => h d (List.mem_cons_of_mem _ hd))]
    rw [List.singleton_append]

theorem flatMap_eq_self_of_singleton {α : Type} {xs : List α} {f : α → List α}
    (h : ∀ x ∈ xs, f x = [x]) : xs.flatMap f = xs := by
  induction xs with
  | nil => rfl
  | cons x rest ih =>
    rw [List.flatMap_cons, h x (by simp), ih (fun y hy => h y (List.mem_cons_of_mem _ hy))]
    rfl

/-! ## Round trips through joinSep -/

theorem joinSep_cons_cons (sep : List Char) (t t2 : List Char) (ts : List (List Char)) :
    joinSep sep (t :: t2 :: ts) = t ++ sep ++ joinSep sep (t2 :: ts) := rfl

theorem mem_joinSep {d : Char} {parts : List (List Char)} {c : Char}
    (h : c ∈ joinSep [d] parts) : c = d ∨ ∃ t ∈ parts, c ∈ t := by
  induction parts with
  | nil => simp [joinSep] at h
  | cons t ts ih =>
    cases ts with
    | nil =>
      rw [joinSep] at h
      exact Or.inr ⟨t, by simp, h⟩
    | cons t2 ts2 =>
      rw [joinSep_cons_cons] at h
      rcases List.mem_append.mp h with h1 | h1
      · rcases List.mem_append.mp h1 with h2 | h2
        · exact Or.inr ⟨t, by simp, h2⟩
        · rcases List.mem_singleton.mp h2 with rfl
          exact Or.inl rfl
      · rcases ih h1 with h2 | ⟨t3, ht3, hc3⟩
        · exact Or.inl h2
        · exact Or.inr ⟨t3, List.mem_cons_of_mem _ ht3, hc3⟩

theorem tokenizeAux_all_clean {p : Char → Bool} :
    ∀ (l acc : List Char), (∀ c ∈ l, p c = false) →
      tokenizeAux p acc l = if acc ++ l = [] then [] else [acc ++ l] := by
  intro l
  induction l with
  | nil => intro acc _; rw [tokenizeAux, List.append_nil]
  | cons c rest ih =>
    intro acc h
    rw [tokenizeAux, if_neg (by simp [h c (by simp)])]
    rw [ih (acc ++ [c]) (fun d hd => h d (List.mem_cons_of_mem _ hd))]
    rw [if_neg (by simp)]
    rw [if_neg (by simp)]
    simp

theorem tokenize_joinSep {p : Char → Bool} {d : Char} (hd : p d = true) :
    ∀ (parts : List (List Char)),
      (∀ t ∈ parts, t ≠ [] ∧ ∀ c ∈ t, p c = false) →
      tokenize p (joinSep [d] parts) = parts := by
  intro parts
  induction parts with
  | nil => intro _; rfl
  | cons t ts ih =>
    intro h
    obtain ⟨htne, htc⟩ := h t (by simp)
    cases ts with
    | nil =>
      rw [joinSep, tokenize, tokenizeAux_all_clean _ [] htc, List.nil_append, if_neg htne]
    | cons t2 ts2 =>
      rw [joinSep_cons_cons, List.append_assoc, List.singleton_append]
      rw [tokenize, tokenizeAux_append_clean htc [] (d :: joinSep [d] (t2 :: ts2)),
        List.nil_append]
      rw [tokenizeAux, if_pos hd, if_neg htne]
      rw [← tokenize, ih (fun q hq => h q (List.mem_cons_of_mem _ hq))]

/-! ## Trim is the identity on whitespace-free strings -/

theorem endsWithP_false_of_all {p : Char → Bool} {l : List Char}
    (h : ∀ c ∈ l, p c = false) : endsWithP p l = false := by
  induction l with
  | nil => rfl
  | cons c rest ih =>
    rw [endsWithP_cons]
    by_cases hr : rest = []
    · rw [if_pos hr]
      exact h c (by simp)
    · rw [if_neg hr]
      exact ih (fun d hd => h d (List.mem_cons_of_mem _ hd))

theorem trimList_eq_self {l : List Char}
    (h : ∀ c ∈ l, isJsWhitespace c = false) : trimList l = l := by
  have hhead : ∀ c, l.head? = some c → isJsWhitespace c = false := by
    intro c hc
    cases l with
    | nil => simp at hc
    | cons d rest =>
      simp only [List.head?_cons, Option.some.injEq] at hc
      subst hc
      exact h d (by simp)
  rw [trimList, dropWhile_eq_self_of_head hhead,
    dropTrailing_eq_self (endsWithP_false_of_all h)]

/-! ## The dot-case output shape and idempotence -/

theorem splitCamelAux_ne_nil : ∀ (l buf : List Char) (prev : Char),
    splitCamelAux buf prev l ≠ [] := by
  intro l
  induction l with
  | nil => intro buf prev; rw [splitCamelAux]; simp
  | cons ch rest ih =>
    intro buf prev
    rw [splitCamelAux]
    by_cases hb : (isUpperAlpha ch &&
        (isLowerAlpha prev || (isUpperAlpha prev && nextIsLowerB rest))) = true
    · rw [if_pos hb]
      simp
    · rw [if_neg hb]
      exact ih _ ch

theorem joinSep_ne_nil {sep : List Char} {q : List Char} {qs : List (List Char)}
    (hq : q ≠ []) : joinSep sep (q :: qs) ≠ [] := by
  cases qs with
  | nil => exact hq
  | cons q2 qs2 =>
    rw [joinSep_cons_cons]
    simp [hq]

theorem ws_false_of_dotDelim_false {c : Char} (h : isDotDelim c = false) :
    isJsWhitespace c = false := by
  rw [isDotDelim] at h
  simp only [Bool.or_eq_false_iff] at h
  exact h.1.1.1

/-- A dot-case output is the empty list, or a dot-joined list of parts that
are non-empty, delimiter-free and free of uppercase letters. -/
theorem toDotCaseList_shape (l : List Char) :
    toDotCaseList l = [] ∨
      ∃ parts,
        (∀ q ∈ parts, q ≠ [] ∧ ∀ c ∈ q, isDotDelim c = false ∧ isUpperAlpha c = false) ∧
        toDotCaseList l = joinSep ['.'] parts := by
  by_cases h1 : trimList l = []
  · left
    simp only [toDotCaseList]
    rw [if_pos h1]
  · cases htok : tokenize isDotDelim (trimList l) with
    | nil =>
      left
      simp only [toDotCaseList]
      rw [if_neg h1, htok]
    | cons t ts =>
      right
      refine ⟨((t :: ts).flatMap splitCamel).map (List.map toLowerChar), ?_, ?_⟩
      · intro q hq
        rcases List.mem_map.mp hq with ⟨q2, hq2, rfl⟩
        rcases List.mem_flatMap.mp hq2 with ⟨tok, htok2, hq3⟩
        have hcl : tok ≠ [] ∧ ∀ c ∈ tok, isDotDelim c = false := by
          have hmem : tok ∈ tokenize isDotDelim (trimList l) := by
            rw [htok]
            exact htok2
          exact tokenize_tokens_clean tok hmem
        obtain ⟨hqne, hqsub⟩ := splitCamel_parts_shape q2 hq3
        constructor
        · intro hmap
          exact hqne (by simpa using hmap)
        · intro c hc
          rcases List.mem_map.mp hc with ⟨d, hd, rfl⟩
          have hdd : isDotDelim d = false := hcl.2 d (hqsub d hd)
          refine ⟨?_, isUpperAlpha_toLowerChar d⟩
          rw [isDotDelim_toLowerChar]
          exact hdd
      · simp only [toDotCaseList]
        rw [if_neg h1, htok]

/-- `toDotCase` is the identity on a dot-joined list of normalized parts. -/
theorem toDotCaseList_of_parts (parts : List (List Char))
    (hq : ∀ q ∈ parts, q ≠ [] ∧ ∀ c ∈ q, isDotDelim c = false ∧ isUpperAlpha c = false) :
    toDotCaseList (joinSep ['.'] parts) = joinSep ['.'] parts := by
  cases parts with
  | nil => rfl
  | cons q qs =>
    have hclean : ∀ c ∈ joinSep ['.'] (q :: qs), isJsWhitespace c = false := by
      intro c hc
      rcases mem_joinSep hc with rfl | ⟨t, ht, hct⟩
      · decide
      · exact ws_false_of_dotDelim_false (((hq t ht).2 c hct).1)
    have htrim := trimList_eq_self hclean
    have hrne : joinSep ['.'] (q :: qs) ≠ [] := joinSep_ne_nil (hq q (by simp)).1
    have htok : tokenize isDotDelim (joinSep ['.'] (q :: qs)) = q :: qs :=
      tokenize_joinSep (by decide) _
        (fun t ht => ⟨(hq t ht).1, fun c hc => ((hq t ht).2 c hc).1⟩)
    simp only [toDotCaseList]
    rw [htrim, if_neg hrne, htok]
    show joinSep ['.'] (((q :: qs).flatMap splitCamel).map (List.map toLowerChar)) =
      joinSep ['.'] (q :: qs)
    have hflat : (q :: qs).flatMap splitCamel = q :: qs :=
      flatMap_eq_self_of_singleton
        (fun t ht => splitCamel_no_upper (hq t ht).1 (fun c hc => ((hq t ht).2 c hc).2))
    rw [hflat]
    rw [map_eq_self_of_fixed]
    intro t ht
    exact map_eq_self_of_fixed (fun c hc => toLowerChar_eq_of_not_upper ((hq t ht).2 c hc).2)

theorem toDotCaseList_idem (l : List Char) :
    toDotCaseList (toDotCaseList l) = toDotCaseList l := by
  rcases toDotCaseList_shape l with h | ⟨parts, hp, h⟩
  · rw [h]
    rfl
  · rw [h]
    exact toDotCaseList_of_parts parts hp

/-! ## toDotCase agrees with its full spec pipeline -/

theorem specSplitCamel_eq_fun : specSplitCamel = splitCamel :=
  funext (fun t => (splitCamel_eq_spec t).symm)

theorem toDotCaseList_eq_specFull (l : List Char) :
    toDotCaseList l = specDotFullList l := by
  rw [specDotFullList, ← tokenize_eq_spec, specSplitCamel_eq_fun]
  simp only [toDotCaseList]
  by_cases h1 : trimList l = []
  · rw [if_pos h1, h1]
    rfl
  · rw [if_neg h1]
    cases htok : tokenize isDotDelim (trimList l) with
    | nil => rfl
    | cons t ts => rfl

/-! ## The two toCamelCase paths agree with their spec descriptions -/

theorem matchesCamelRegex_eq (t : List Char) :
    matchesCamelRegex t =
      ((match t with | [] => false | c :: _ => isLowerAlpha c) && t.all isAlnumChar) := by
  cases t with
  | nil => rfl
  | cons c rest =>
    show (isLowerAlpha c && rest.all isAlnumChar) =
      (isLowerAlpha c && (c :: rest).all isAlnumChar)
    cases hc : isLowerAlpha c with
    | false => rw [Bool.false_and, Bool.false_and]
    | true =>
      have hca : isAlnumChar c = true := by simp [isAlnumChar, hc]
      simp [List.all_cons, hca]

theorem eq_map_upper_iff {t : List Char} :
    t = t.map toUpperChar ↔ t.all (fun c => !isLowerAlpha c) = true := by
  rw [eq_comm, map_eq_self_iff_fixed, List.all_eq_true]
  constructor
  · intro h c hc
    have := (toUpperChar_eq_self_iff c).mp (h c hc)
    simp [this]
  · intro h c hc
    rw [toUpperChar_eq_self_iff]
    simpa using h c hc

theorem toCamelCaseList_single {l : List Char} (h1 : trimList l ≠ [])
    (h2 : (trimList l).any isCamelDelim = false) :
    toCamelCaseList l = specCamelSinglePath (trimList l) := by
  have hAeq : (matchesCamelRegex (trimList l) && (trimList l).any isUpperAlpha) =
      ((match trimList l with | [] => false | c :: _ => isLowerAlpha c) &&
        (trimList l).all isAlnumChar && (trimList l).any isUpperAlpha) := by
    rw [matchesCamelRegex_eq]
  have hBeq : (trimList l = (trimList l).map toUpperChar) ↔
      ((trimList l).all (fun c => !isLowerAlpha c) = true) := eq_map_upper_iff
  simp only [toCamelCaseList]
  rw [if_neg h1, if_pos h2]
  unfold specCamelSinglePath
  by_cases hA : (matchesCamelRegex (trimList l) && (trimList l).any isUpperAlpha) = true
  · rw [if_pos hA, if_pos (show _ = true by rw [← hAeq]; exact hA)]
  · rw [if_neg hA, if_neg (show ¬_ = true by rw [← hAeq]; exact hA)]
    by_cases hB : trimList l = (trimList l).map toUpperChar
    · rw [if_pos hB, if_pos (hBeq.mp hB)]
    · rw [if_neg hB, if_neg (fun hall => hB (hBeq.mpr hall))]

theorem capitalizeToken_eq_fun :
    capitalizeToken = (fun tok : List Char =>
      match tok with
      | [] => ([] : List Char)
      | c :: rest => toUpperChar c :: rest.map toLowerChar) := by
  funext tok
  cases tok <;> rfl

theorem toCamelCaseList_delim {l : List Char}
    (h2 : (trimList l).any isCamelDelim = true) :
    toCamelCaseList l = specCamelDelimPath l := by
  have h1 : trimList l ≠ [] := by
    intro h0
    rw [h0] at h2
    simp at h2
  simp only [toCamelCaseList]
  rw [if_neg h1, if_neg (by rw [h2]; simp)]
  unfold specCamelDelimPath
  rw [← tokenize_eq_spec]
  cases htok : tokenize isCamelDelim (trimList l) with
  | nil => rfl
  | cons t ts =>
    show t.map toLowerChar ++ (ts.map capitalizeToken).flatten =
      t.map toLowerChar ++ (ts.map (fun tok =>
        match tok with
        | [] => ([] : List Char)
        | c :: rest => toUpperChar c :: rest.map toLowerChar)).flatten
    rw [capitalizeToken_eq_fun]

/-! ## Claim theorems -/

/-- C1: for every string input, `toKebabCase` equals the four-step reference
algorithm — insert a hyphen between every lowercase letter immediately
followed by an uppercase letter, collapse every run of delimiter characters
(whitespace, underscore, period, hyphen) to a single hyphen, lowercase the
string, and strip leading and trailing hyphens; in particular
`toKebabCase "HelloWorld" = "hello-world"` and
`toKebabCase "hello...world" = "hello-world"`. -/
theorem toKebabCase_matches_reference_algorithm :
    (∀ s : String, toKebabCaseStr s = specKebabStr s) ∧
    toKebabCase (JSValue.str "HelloWorld") = Except.ok "hello-world" ∧
    toKebabCase (JSValue.str "hello...world") = Except.ok "hello-world" := by
  refine ⟨?_, rfl, rfl⟩
  intro s
  rw [toKebabCaseStr, specKebabStr, toKebabCaseList_eq_spec]

/-- C2: on every input whose trimmed form contains a delimiter (whitespace,
hyphen or underscore), `toCamelCase` takes the delimiter path: split on
delimiter runs discarding empty tokens, lowercase the first token, capitalize
the head and lowercase the tail of each later token, and concatenate; in
particular `toCamelCase "kebab-case-example" = "kebabCaseExample"` and
`toCamelCase "$pecial-char_name" = "$pecialCharName"`. -/
theorem toCamelCase_delimiter_path :
    (∀ s : String, (trimList s.data).any isCamelDelim = true →
      toCamelCase (JSValue.str s) = Except.ok (String.mk (specCamelDelimPath s.data))) ∧
    toCamelCase (JSValue.str "kebab-case-example") = Except.ok "kebabCaseExample" ∧
    toCamelCase (JSValue.str "$pecial-char_name") = Except.ok "$pecialCharName" := by
  refine ⟨?_, rfl, rfl⟩
  intro s h
  show Except.ok (toCamelCaseStr s) = _
  rw [toCamelCaseStr, toCamelCaseList_delim h]

/-- Witness for C2 at the concrete input `"kebab-case-example"`. -/
theorem toCamelCase_delimiter_path_witness :
    (trimList "kebab-case-example".data).any isCamelDelim = true ∧
    toCamelCase (JSValue.str "kebab-case-example") =
      Except.ok (String.mk (specCamelDelimPath "kebab-case-example".data)) :=
  ⟨by decide, toCamelCase_delimiter_path.1 "kebab-case-example" (by decide)⟩

/-- C3: `splitCamel` splits a token exactly at the positions whose character
is uppercase and whose previous character is lowercase, or whose previous
character is uppercase while the next is lowercase; consequently
`toDotCase "FOOBar" = "foo.bar"` and
`toDotCase "alreadyCamelCase" = "already.camel.case"`. -/
theorem splitCamel_boundary_characterization :
    (∀ t : List Char, splitCamel t = specSplitCamel t) ∧
    toDotCase (JSValue.str "FOOBar") = Except.ok "foo.bar" ∧
    toDotCase (JSValue.str "alreadyCamelCase") = Except.ok "already.camel.case" :=
  ⟨splitCamel_eq_spec, rfl, rfl⟩

/-- C4: `toKebabCase` is idempotent on every string. -/
theorem toKebabCase_idempotent :
    ∀ s : String, toKebabCaseStr (toKebabCaseStr s) = toKebabCaseStr s := by
  intro s
  simp only [toKebabCaseStr]
  exact congrArg String.mk (toKebabCaseList_idem s.data)

/-- C5: on every input whose trimmed form is non-empty and delimiter-free,
`toCamelCase` takes the single-token path: the token is returned unchanged
when it starts with a lowercase letter, consists of letters and digits only
and contains an uppercase letter; otherwise it is fully lowercased when it
contains no lowercase letter; otherwise only its first character is
lowercased; in particular `toCamelCase "SINGLE" = "single"` and
`toCamelCase "alreadyCamelCase" = "alreadyCamelCase"`. -/
theorem toCamelCase_single_token_path :
    (∀ s : String, trimList s.data ≠ [] → (trimList s.data).any isCamelDelim = false →
      toCamelCase (JSValue.str s) =
        Except.ok (String.mk (specCamelSinglePath (trimList s.data)))) ∧
    toCamelCase (JSValue.str "SINGLE") = Except.ok "single" ∧
    toCamelCase (JSValue.str "alreadyCamelCase") = Except.ok "alreadyCamelCase" := by
  refine ⟨?_, rfl, rfl⟩
  intro s h1 h2
  show Except.ok (toCamelCaseStr s) = _
  rw [toCamelCaseStr, toCamelCaseList_single h1 h2]

/-- Witness for C5 at the concrete input `"SINGLE"`. -/
theorem toCamelCase_single_token_path_witness :
    (trimList "SINGLE".data ≠ [] ∧ (trimList "SINGLE".data).any isCamelDelim = false) ∧
    toCamelCase (JSValue.str "SINGLE") =
      Except.ok (String.mk (specCamelSinglePath (trimList "SINGLE".data))) :=
  ⟨⟨by decide, by decide⟩,
    toCamelCase_single_token_path.1 "SINGLE" (by decide) (by decide)⟩

/-- C6: the period is not a `toCamelCase` delimiter, so a dotted input is a
single token and comes back unchanged. -/
theorem dot_not_camel_delimiter :
    isCamelDelim '.' = false ∧
    toCamelCase (JSValue.str "dots.are.not.delimiters") =
      Except.ok "dots.are.not.delimiters" :=
  ⟨by decide, rfl⟩

/-- C7 counterexample: `toDotCase` does not equal the claimed pipeline that
omits the camelCase sub-splitting step — at `"FOOBar"` the code yields
`"foo.bar"` while the claimed pipeline yields `"foobar"`. -/
theorem toDotCase_not_plain_token_lowering :
    toDotCaseStr "FOOBar" ≠ specDotNoCamelStr "FOOBar" := by
  have h2 : specDotNoCamelStr "FOOBar" = "foobar" := by
    rw [specDotNoCamelStr, specDotNoCamelList, ← tokenize_eq_spec]
    rfl
  rw [h2]
  decide

/-- C7 (amended): `toDotCase` splits the trimmed input on runs of whitespace,
hyphens, underscores and dots discarding empty tokens, additionally splits
each token at camelCase boundaries, lowercases every resulting part, and
joins all parts with single dots; in particular
`toDotCase "foo--bar__baz" = "foo.bar.baz"`,
`toDotCase "user_123-id" = "user.123.id"` and
`toDotCase "NASA API" = "nasa.api"`. -/
theorem toDotCase_pipeline :
    (∀ s : String, toDotCaseStr s = specDotFullStr s) ∧
    toDotCase (JSValue.str "foo--bar__baz") = Except.ok "foo.bar.baz" ∧
    toDotCase (JSValue.str "user_123-id") = Except.ok "user.123.id" ∧
    toDotCase (JSValue.str "NASA API") = Except.ok "nasa.api" := by
  refine ⟨?_, rfl, rfl, rfl⟩
  intro s
  rw [toDotCaseStr, specDotFullStr, toDotCaseList_eq_specFull]

/-- C8: all three converters return the empty string on `null` and on
`undefined`. -/
theorem null_undefined_give_empty :
    toKebabCase JSValue.jsNull = Except.ok "" ∧
    toKebabCase JSValue.jsUndefined = Except.ok "" ∧
    toCamelCase JSValue.jsNull = Except.ok "" ∧
    toCamelCase JSValue.jsUndefined = Except.ok "" ∧
    toDotCase JSValue.jsNull = Except.ok "" ∧
    toDotCase JSValue.jsUndefined = Except.ok "" :=
  ⟨rfl, rfl, rfl, rfl, rfl, rfl⟩

/-- C9: on every value that is neither a string nor null nor undefined, all
three converters throw a `TypeError` (modelled as `Except.error`, which by
construction carries no partial output). -/
theorem non_string_throws :
    ∀ v : JSValue, isStringOrNullish v = false →
      isOkResult (toKebabCase v) = false ∧
      isOkResult (toCamelCase v) = false ∧
      isOkResult (toDotCase v) = false := by
  intro v h
  cases v with
  | str s => simp [isStringOrNullish] at h
  | jsNull => simp [isStringOrNullish] at h
  | jsUndefined => simp [isStringOrNullish] at h
  | num n => exact ⟨rfl, rfl, rfl⟩
  | boolean b => exact ⟨rfl, rfl, rfl⟩
  | object => exact ⟨rfl, rfl, rfl⟩
  | array => exact ⟨rfl, rfl, rfl⟩

/-- Witness for C9 at the concrete non-string value `123`. -/
theorem non_string_throws_witness :
    isStringOrNullish (JSValue.num 123) = false ∧
      (isOkResult (toKebabCase (JSValue.num 123)) = false ∧
       isOkResult (toCamelCase (JSValue.num 123)) = false ∧
       isOkResult (toDotCase (JSValue.num 123)) = false) :=
  ⟨rfl, non_string_throws (JSValue.num 123) rfl⟩

/-- C10: `toDotCase` is idempotent on every string. -/
theorem toDotCase_idempotent :
    ∀ s : String, toDotCaseStr (toDotCaseStr s) = toDotCaseStr s := by
  intro s
  simp only [toDotCaseStr]
  exact congrArg String.mk (toDotCaseList_idem s.data)
